import Mathlib

/-!
Verification of the n-gram / POS-tagging / Viterbi scripts.

The development shallowly embeds the three scripts:
* `bigram.py` : word bigram model with four smoothing variants
  (none, add-one, add-one-fast, good-turing) and a sentence
  probability query;
* `tagging.py` : POS model built from a `word_TAG` corpus and the
  empirical sequence decoder;
* `viterbi.py` : the matrix Viterbi decoder over explicit transition
  and emission matrices.

Counts are natural numbers, probabilities are rationals.  A program
point where the Python source raises an exception (KeyError,
ValueError, TypeError) is modelled by `Option`, `none` standing for
the raised exception.
-/

namespace NgramModel

/-- A symbol of the bigram model: the start-of-sentence marker, the
end-of-sentence marker (the integer sentinels `0` and `1` in the
source, distinct from every token string), or a word string. -/
inductive Sym where
  | start : Sym
  | stop : Sym
  | word : String → Sym
deriving DecidableEq, Repr

/-- Split a character list at every occurrence of the underscore
character, mirroring Python `str.split("_")` (so the empty string
yields one empty field). -/
def splitUnder : List Char → List (List Char)
  | [] => [[]]
  | c :: cs =>
    let r := splitUnder cs
    if c = '_' then [] :: r else (c :: r.headI) :: r.tail

/-- `bigram.py` token normalization: the sentence line is lowercased
(`sentence.lower()`) and each token is replaced by the part before its
first underscore (`t.split("_")[0]`).  Boundary markers are integer
sentinels in the source and are never passed through this function. -/
def normTok (t : String) : String :=
  String.mk ((splitUnder (t.toList.map Char.toLower)).headI)

/-- The symbol stream of one sentence: start marker, the normalized
word tokens, end marker (`[START_OF_SENTENCE] + tokens + [END_OF_SENTENCE]`). -/
def sentStream (ts : List String) : List Sym :=
  Sym.start :: (ts.map (fun t => Sym.word (normTok t)) ++ [Sym.stop])

/-- All symbol occurrences of the corpus, sentence streams concatenated. -/
def allSyms (c : List (List String)) : List Sym :=
  (c.map sentStream).flatten

/-- `unigramCount`: occurrences of a symbol in the corpus. -/
def uniCount (c : List (List String)) (x : Sym) : ℕ :=
  (allSyms c).count x

/-- The adjacent pairs `(current, previous)` of one sentence stream;
`prevToken` is reset at each sentence, so pairs never cross a
sentence boundary. -/
def sentPairs (ts : List String) : List (Sym × Sym) :=
  (sentStream ts).tail.zip (sentStream ts)

/-- All bigram occurrences of the corpus. -/
def allPairs (c : List (List String)) : List (Sym × Sym) :=
  (c.map sentPairs).flatten

/-- `bigramCount`: occurrences of the pair `(x, p)` (symbol `x`
immediately preceded by `p`). -/
def biCount (c : List (List String)) (x p : Sym) : ℕ :=
  (allPairs c).count (x, p)

/-- The vocabulary: distinct symbols observed (the key set of
`unigramCount`, boundary markers included). -/
def vocab (c : List (List String)) : Finset Sym :=
  (allSyms c).toFinset

/-- `V = len(unigramCount.keys())`. -/
def vsize (c : List (List String)) : ℕ :=
  (vocab c).card

/-- The `none`-smoothing probability table: an entry
`bigramCount/unigramCount` for each observed pair, no entry otherwise
(the table's designated unseen entry is the separate constant `0`). -/
def noneProb (c : List (List String)) (x p : Sym) : Option ℚ :=
  if biCount c x p ≠ 0 then
    some ((biCount c x p : ℚ) / (uniCount c p : ℚ))
  else none

/-- The eager add-one table (`add-one`): `(count+1)/(unigramCount[p]+V)`
for each observed pair, and the materialized entry
`1/(unigramCount[p]+V)` for every unseen pair whose predecessor is a
vocabulary symbol other than the end marker and whose symbol is a
vocabulary symbol other than the start marker.  Any other pair has no
entry; a query on it reads the (absent) `(None, None)` entry and
raises KeyError in the source, modelled by `none`. -/
def addOneEntry (c : List (List String)) (x p : Sym) : Option ℚ :=
  if biCount c x p ≠ 0 then
    some (((biCount c x p : ℚ) + 1) / ((uniCount c p : ℚ) + (vsize c : ℚ)))
  else if p ∈ vocab c ∧ p ≠ Sym.stop ∧ x ∈ vocab c ∧ x ≠ Sym.start then
    some (1 / ((uniCount c p : ℚ) + (vsize c : ℚ)))
  else none

/-- The lazy add-one query (`add-one-fast`): the table holds only the
observed entries; an absent pair is scored `1/(unigramCount[prevToken]+V)`
at query time, which raises KeyError (modelled `none`) when the
predecessor is not a vocabulary symbol. -/
def addOneFastQuery (c : List (List String)) (x p : Sym) : Option ℚ :=
  if biCount c x p ≠ 0 then
    some (((biCount c x p : ℚ) + 1) / ((uniCount c p : ℚ) + (vsize c : ℚ)))
  else if p ∈ vocab c then
    some (1 / ((uniCount c p : ℚ) + (vsize c : ℚ)))
  else none

/-- `N`: the total number of bigram occurrences
(`sum(bigramCount.values())`). -/
def gtN (c : List (List String)) : ℕ :=
  (allPairs c).length

/-- The observed bigram types (the key set of `bigramCount`). -/
def biSupport (c : List (List String)) : Finset (Sym × Sym) :=
  (allPairs c).toFinset

/-- `Nc[k]`: the number of distinct bigram types whose count equals `k`
(`sum(c == k for c in bigramCount.values())`). -/
def NcF (c : List (List String)) (k : ℕ) : ℕ :=
  ((biSupport c).filter (fun q => biCount c q.1 q.2 = k)).card

/-- The adjusted Good-Turing count: `(k+1)*Nc[k+1]/Nc[k]` guarded to
`0` when `Nc[k] = 0`. -/
def cStar (c : List (List String)) (k : ℕ) : ℚ :=
  if NcF c k = 0 then 0
  else ((k : ℚ) + 1) * (NcF c (k + 1) : ℚ) / (NcF c k : ℚ)

/-- The Good-Turing probability table: `c*/N` for each observed pair. -/
def goodTuringTable (c : List (List String)) (x p : Sym) : Option ℚ :=
  if biCount c x p ≠ 0 then
    some (cStar c (biCount c x p) / (gtN c : ℚ))
  else none

/-- The designated Good-Turing unseen-pair entry `Nc[1]/N`. -/
def gtUnseen (c : List (List String)) : ℚ :=
  (NcF c 1 : ℚ) / (gtN c : ℚ)

/-- The sentence probability query: starting from `1`, multiply a
per-pair factor over the adjacent pairs of the test stream; `f`
abstracts the smoothing-dependent branch of the loop, `none` standing
for an exception raised there. -/
def sentScore (f : Sym → Sym → Option ℚ) (ts : List String) : Option ℚ :=
  (sentPairs ts).foldl
    (fun acc q =>
      match acc, f q.1 q.2 with
      | some a, some v => some (a * v)
      | _, _ => none)
    (some 1)

/-- Counting adjacent pairs by predecessor: the occurrences of `p` as a
predecessor are the occurrences of `p` in the list, save one when `p`
is the final element (which precedes nothing). -/
lemma zipTail_countP (l : List Sym) (p : Sym) :
    (l.tail.zip l).countP (fun q => q.2 == p)
      + (if l.getLast? = some p then 1 else 0) = l.count p := by
  induction l with
  | nil => simp
  | cons a t ih =>
    cases t with
    | nil =>
      by_cases h : a = p <;> simp [List.count_cons, List.zip, h]
    | cons b t2 =>
      have h := ih
      simp only [List.tail_cons] at h ⊢
      simp only [List.zip_cons_cons, List.countP_cons, List.count_cons,
        List.getLast?_cons_cons] at h ⊢
      omega

/-- An adjacent pair takes its first component from the tail of the
list and its second component from everything but the last element. -/
lemma mem_zipTail (l : List Sym) (q : Sym × Sym) (h : q ∈ l.tail.zip l) :
    q.1 ∈ l.tail ∧ q.2 ∈ l.dropLast := by
  induction l with
  | nil => simp [List.zip] at h
  | cons a t ih =>
    cases t with
    | nil => simp [List.zip] at h
    | cons b t2 =>
      simp only [List.tail_cons, List.zip_cons_cons, List.mem_cons] at h ⊢
      rcases h with h | h
      · subst h
        simp [List.dropLast_cons_of_ne_nil]
      · have h2 := ih (by simpa [List.zip] using h)
        refine ⟨Or.inr h2.1, ?_⟩
        rw [List.dropLast_cons_of_ne_nil (by simp)]
        exact List.mem_cons_of_mem _ (by simpa using h2.2)

lemma sentStream_tail_ne_start (ts : List String) (x : Sym)
    (h : x ∈ (sentStream ts).tail) : x ≠ Sym.start := by
  simp only [sentStream, List.tail_cons, List.mem_append, List.mem_map,
    List.mem_singleton] at h
  rcases h with ⟨t, _, rfl⟩ | rfl <;> simp

lemma sentStream_dropLast_ne_stop (ts : List String) (x : Sym)
    (h : x ∈ (sentStream ts).dropLast) : x ≠ Sym.stop := by
  have hd : (sentStream ts).dropLast
      = Sym.start :: ts.map (fun t => Sym.word (normTok t)) := by
    simp [sentStream, List.dropLast_cons_of_ne_nil, List.dropLast_append_of_ne_nil]
  rw [hd] at h
  simp only [List.mem_cons, List.mem_map] at h
  rcases h with rfl | ⟨t, _, rfl⟩ <;> simp

lemma sentStream_getLast (ts : List String) :
    (sentStream ts).getLast? = some Sym.stop := by
  rw [sentStream, ← List.cons_append, List.getLast?_concat]

lemma sentStream_count_stop (ts : List String) :
    (sentStream ts).count Sym.stop = 1 := by
  simp only [sentStream, List.count_cons, List.count_append]
  rw [List.count_eq_zero.2 (by simp)]
  simp

/-- Within one sentence, every symbol other than the end marker is a
predecessor exactly as often as it occurs. -/
lemma sentPairs_countP (ts : List String) (p : Sym) (hp : p ≠ Sym.stop) :
    (sentPairs ts).countP (fun q => q.2 == p) = (sentStream ts).count p := by
  have h := zipTail_countP (sentStream ts) p
  rw [sentStream_getLast ts] at h
  simpa [sentPairs, hp.symm] using h

lemma allPairs_countP (c : List (List String)) (p : Sym) (hp : p ≠ Sym.stop) :
    (allPairs c).countP (fun q => q.2 == p) = uniCount c p := by
  unfold allPairs uniCount allSyms
  rw [List.countP_flatten, List.count_flatten]
  simp only [List.map_map]
  congr 1
  exact List.map_congr_left fun ts _ => sentPairs_countP ts p hp

/-- An observed bigram never has the start marker as its symbol nor
the end marker as its predecessor, and its symbol is in the corpus. -/
lemma mem_allPairs (c : List (List String)) (q : Sym × Sym)
    (h : q ∈ allPairs c) :
    q.1 ∈ allSyms c ∧ q.1 ≠ Sym.start ∧ q.2 ≠ Sym.stop := by
  simp only [allPairs, List.mem_flatten, List.mem_map] at h
  obtain ⟨L, ⟨ts, hts, rfl⟩, hq⟩ := h
  have h2 := mem_zipTail _ _ hq
  refine ⟨?_, sentStream_tail_ne_start ts _ h2.1,
    sentStream_dropLast_ne_stop ts _ h2.2⟩
  simp only [allSyms, List.mem_flatten, List.mem_map]
  exact ⟨sentStream ts, ⟨ts, hts, rfl⟩, List.mem_of_mem_tail h2.1⟩

lemma biCount_ne_zero_mem (c : List (List String)) (x p : Sym)
    (h : biCount c x p ≠ 0) : (x, p) ∈ allPairs c := by
  rw [biCount, Ne, List.count_eq_zero] at h
  exact not_not.1 h

/-- The end marker is never a predecessor. -/
lemma biCount_stop (c : List (List String)) (x : Sym) :
    biCount c x Sym.stop = 0 := by
  by_contra h
  exact (mem_allPairs c _ (biCount_ne_zero_mem c x Sym.stop h)).2.2 rfl

lemma biCount_start_left (c : List (List String)) (p : Sym) :
    biCount c Sym.start p = 0 := by
  by_contra h
  exact (mem_allPairs c _ (biCount_ne_zero_mem c Sym.start p h)).2.1 rfl

/-- Summing pair counts over the possible first components. -/
lemma sum_count_pairs (L : List (Sym × Sym)) (S : Finset Sym) (p : Sym)
    (hS : ∀ q ∈ L, q.2 = p → q.1 ∈ S) :
    ∑ x ∈ S, L.count (x, p) = L.countP (fun q => q.2 == p) := by
  induction L with
  | nil => simp
  | cons q L ih =>
    have hS2 : ∀ r ∈ L, r.2 = p → r.1 ∈ S := fun r hr => hS r (List.mem_cons_of_mem _ hr)
    simp only [List.count_cons, List.countP_cons]
    rw [Finset.sum_add_distrib, ih hS2]
    congr 1
    by_cases hq : q.2 = p
    · have hq1 : q.1 ∈ S := hS q (List.mem_cons_self q L) hq
      have he : ∀ x ∈ S, (if q == (x, p) then 1 else 0) = if x = q.1 then 1 else 0 := by
        intro x _
        simp only [beq_iff_eq, Prod.ext_iff]
        by_cases hx : x = q.1
        · subst hx
          simp [hq]
        · simp [hq, hx, show ¬q.1 = x from fun h => hx h.symm]
      rw [Finset.sum_congr rfl he, Finset.sum_ite_eq' S q.1 (fun _ => 1)]
      simp [hq1, hq]
    · have he : ∀ x ∈ S, (if q == (x, p) then 1 else 0) = 0 := by
        intro x _
        simp only [beq_iff_eq, Prod.ext_iff]
        simp [hq]
      rw [Finset.sum_congr rfl he]
      simp [hq]

/-- The bigram-count marginal: for a predecessor other than the end
marker, the bigram counts over all symbols sum to the predecessor's
unigram count. -/
lemma sum_biCount (c : List (List String)) (p : Sym) (hp : p ≠ Sym.stop) :
    ∑ x ∈ vocab c, biCount c x p = uniCount c p := by
  have hS : ∀ q ∈ allPairs c, q.2 = p → q.1 ∈ vocab c := by
    intro q hq _
    have h1 := (mem_allPairs c q hq).1
    simpa [vocab] using h1
  have h := sum_count_pairs (allPairs c) (vocab c) p hS
  rw [allPairs_countP c p hp] at h
  simpa [biCount] using h

/-- The start marker is in the vocabulary of every nonempty corpus. -/
lemma start_mem_vocab (c : List (List String)) (h : (vocab c).Nonempty) :
    Sym.start ∈ vocab c := by
  obtain ⟨x, hx⟩ := h
  rw [vocab, List.mem_toFinset] at hx ⊢
  cases c with
  | nil => simp [allSyms] at hx
  | cons ts c2 =>
    simp only [allSyms, List.map_cons, List.flatten_cons, List.mem_append]
    exact Or.inl (by simp [sentStream])

lemma uniCount_ne_zero_of_mem (c : List (List String)) (p : Sym)
    (hp : p ∈ vocab c) : uniCount c p ≠ 0 := fun h =>
  (List.count_eq_zero.1 h) (by simpa [vocab] using hp)

/-- C7: the bigram counts marginalize to the unigram counts for every
predecessor other than the end marker, and the end marker is never a
predecessor. -/
theorem frequency_marginal_invariant (c : List (List String)) (p x : Sym)
    (hp : p ≠ Sym.stop) :
    (∑ s ∈ vocab c, biCount c s p = uniCount c p) ∧ biCount c x Sym.stop = 0 :=
  ⟨sum_biCount c p hp, biCount_stop c x⟩

theorem frequency_marginal_invariant_witness :
    Sym.word "a" ≠ Sym.stop ∧
      ((∑ s ∈ vocab [["a"]], biCount [["a"]] s (Sym.word "a")
          = uniCount [["a"]] (Sym.word "a")) ∧
        biCount [["a"]] Sym.stop Sym.stop = 0) :=
  ⟨by decide, frequency_marginal_invariant [["a"]] (Sym.word "a") Sym.stop (by decide)⟩

/-- C8: under none smoothing, the table probabilities of the observed
successors of any predecessor occurring in the corpus (other than the
end marker) sum to one. -/
theorem none_smoothing_normalization (c : List (List String)) (p : Sym)
    (hp : p ∈ vocab c) (hps : p ≠ Sym.stop) :
    ∑ s ∈ (vocab c).filter (fun s => biCount c s p ≠ 0),
      (noneProb c s p).getD 0 = 1 := by
  have hu0 : uniCount c p ≠ 0 := uniCount_ne_zero_of_mem c p hp
  have hu : (uniCount c p : ℚ) ≠ 0 := Nat.cast_ne_zero.2 hu0
  have h1 : ∀ s ∈ (vocab c).filter (fun s => biCount c s p ≠ 0),
      (noneProb c s p).getD 0 = (biCount c s p : ℚ) / (uniCount c p : ℚ) := by
    intro s hs
    have hb : biCount c s p ≠ 0 := (Finset.mem_filter.1 hs).2
    simp [noneProb, hb]
  rw [Finset.sum_congr rfl h1, ← Finset.sum_div]
  have h3 : (∑ s ∈ (vocab c).filter (fun s => biCount c s p ≠ 0), (biCount c s p : ℚ))
      = ∑ s ∈ vocab c, (biCount c s p : ℚ) :=
    Finset.sum_filter_of_ne (fun x _ h0 hb => h0 (by rw [hb]; norm_num))
  have h2 : ∑ s ∈ (vocab c).filter (fun s => biCount c s p ≠ 0), (biCount c s p : ℚ)
      = (uniCount c p : ℚ) := by
    rw [h3]
    exact_mod_cast congrArg (fun n : ℕ => (n : ℚ)) (sum_biCount c p hps)
  rw [h2, div_self hu]

theorem none_smoothing_normalization_witness :
    Sym.word "a" ∈ vocab [["a"]] ∧ Sym.word "a" ≠ Sym.stop ∧
      ∑ s ∈ (vocab [["a"]]).filter
          (fun s => biCount [["a"]] s (Sym.word "a") ≠ 0),
        (noneProb [["a"]] s (Sym.word "a")).getD 0 = 1 :=
  ⟨by decide, by decide,
    none_smoothing_normalization [["a"]] (Sym.word "a") (by decide) (by decide)⟩

/-- C4 (counterexample to the claim as stated): on the one-sentence
corpus `a`, the vocabulary is `{start, a, stop}` with `V = 3`, and for
the predecessor `start` the add-one table probabilities summed over
the entire vocabulary give `3/4`, not `1`: the pair `(start, start)`
is neither observed nor materialized, so it contributes `0`. -/
theorem addOne_normalization_counterexample :
    (∑ s ∈ vocab [["a"]], (addOneEntry [["a"]] s Sym.start).getD 0) = 3 / 4 ∧
      ¬ (∑ s ∈ vocab [["a"]], (addOneEntry [["a"]] s Sym.start).getD 0) = 1 := by
  have h : (∑ s ∈ vocab [["a"]], (addOneEntry [["a"]] s Sym.start).getD 0) = 3 / 4 := by
    rw [show vocab [["a"]] = {Sym.start, Sym.word "a", Sym.stop} from by decide]
    rw [Finset.sum_insert (by decide), Finset.sum_insert (by decide),
      Finset.sum_singleton]
    norm_num [addOneEntry,
      show biCount [["a"]] Sym.start Sym.start = 0 from by decide,
      show biCount [["a"]] (Sym.word "a") Sym.start = 1 from by decide,
      show biCount [["a"]] Sym.stop Sym.start = 0 from by decide,
      show uniCount [["a"]] Sym.start = 1 from by decide,
      show vsize [["a"]] = 3 from by decide,
      show Sym.start ∈ vocab [["a"]] from by decide,
      show Sym.stop ∈ vocab [["a"]] from by decide,
      show ¬ Sym.start = Sym.stop from by decide,
      show ¬ Sym.stop = Sym.start from by decide]
  exact ⟨h, by rw [h]; norm_num⟩

/-- C4 (amended): under add-one smoothing, for every predecessor `p`
in the vocabulary other than the end marker, summing the materialized
probabilities over the entire vocabulary (an absent entry counting
`0`) gives `(UnigramCounts[p]+V-1)/(UnigramCounts[p]+V)`: exactly one
vocabulary cell, `(start-marker, p)`, is never observed and never
materialized, so the sum falls short of `1` by `1/(UnigramCounts[p]+V)`. -/
theorem addOne_normalization (c : List (List String)) (p : Sym)
    (hp : p ∈ vocab c) (hps : p ≠ Sym.stop) :
    ∑ s ∈ vocab c, (addOneEntry c s p).getD 0
      = ((uniCount c p : ℚ) + (vsize c : ℚ) - 1)
        / ((uniCount c p : ℚ) + (vsize c : ℚ)) := by
  have hne : (vocab c).Nonempty := ⟨p, hp⟩
  have hstart := start_mem_vocab c hne
  have hV : 0 < vsize c := Finset.card_pos.2 hne
  have hD : ((uniCount c p : ℚ) + (vsize c : ℚ)) ≠ 0 := by
    have h1 : (0 : ℚ) ≤ (uniCount c p : ℚ) := Nat.cast_nonneg _
    have h2 : (0 : ℚ) < (vsize c : ℚ) := by exact_mod_cast hV
    linarith
  rw [← Finset.sum_filter_add_sum_filter_not (vocab c) (fun s => biCount c s p ≠ 0)]
  have hF : ∑ s ∈ (vocab c).filter (fun s => biCount c s p ≠ 0),
        (addOneEntry c s p).getD 0
      = ((uniCount c p : ℚ)
          + (((vocab c).filter (fun s => biCount c s p ≠ 0)).card : ℚ))
        / ((uniCount c p : ℚ) + (vsize c : ℚ)) := by
    have h1 : ∀ s ∈ (vocab c).filter (fun s => biCount c s p ≠ 0),
        (addOneEntry c s p).getD 0
          = ((biCount c s p : ℚ) + 1) / ((uniCount c p : ℚ) + (vsize c : ℚ)) := by
      intro s hs
      have hb : biCount c s p ≠ 0 := (Finset.mem_filter.1 hs).2
      simp [addOneEntry, hb]
    rw [Finset.sum_congr rfl h1, ← Finset.sum_div]
    congr 1
    rw [Finset.sum_add_distrib, Finset.sum_const, nsmul_eq_mul, mul_one]
    congr 1
    have h3 : (∑ s ∈ (vocab c).filter (fun s => biCount c s p ≠ 0), (biCount c s p : ℚ))
        = ∑ s ∈ vocab c, (biCount c s p : ℚ) :=
      Finset.sum_filter_of_ne (fun x _ h0 hb => h0 (by rw [hb]; norm_num))
    rw [h3]
    exact_mod_cast congrArg (fun n : ℕ => (n : ℚ)) (sum_biCount c p hps)
  have hstartF : Sym.start ∈ (vocab c).filter (fun s => ¬ biCount c s p ≠ 0) :=
    Finset.mem_filter.2 ⟨hstart, by simp [biCount_start_left c p]⟩
  have hF2 : ∑ s ∈ (vocab c).filter (fun s => ¬ biCount c s p ≠ 0),
        (addOneEntry c s p).getD 0
      = ((((vocab c).filter (fun s => ¬ biCount c s p ≠ 0)).card : ℚ) - 1)
        / ((uniCount c p : ℚ) + (vsize c : ℚ)) := by
    rw [← Finset.add_sum_erase _ _ hstartF]
    have h0 : (addOneEntry c Sym.start p).getD 0 = 0 := by
      simp [addOneEntry, biCount_start_left c p]
    have h1 : ∀ s ∈ ((vocab c).filter (fun s => ¬ biCount c s p ≠ 0)).erase Sym.start,
        (addOneEntry c s p).getD 0
          = 1 / ((uniCount c p : ℚ) + (vsize c : ℚ)) := by
      intro s hs
      have hs1 := Finset.mem_of_mem_erase hs
      have hsne := Finset.ne_of_mem_erase hs
      have hsv := (Finset.mem_filter.1 hs1).1
      have hb : biCount c s p = 0 := by
        have h4 := (Finset.mem_filter.1 hs1).2
        simpa using h4
      simp [addOneEntry, hb, hp, hps, hsv, hsne]
    rw [h0, zero_add, Finset.sum_congr rfl h1, Finset.sum_const, nsmul_eq_mul,
      Finset.card_erase_of_mem hstartF]
    have hc1 : 1 ≤ ((vocab c).filter (fun s => ¬ biCount c s p ≠ 0)).card :=
      Finset.card_pos.2 ⟨_, hstartF⟩
    rw [Nat.cast_sub hc1]
    push_cast
    ring
  rw [hF, hF2]
  have hcards : (((vocab c).filter (fun s => biCount c s p ≠ 0)).card : ℚ)
      + (((vocab c).filter (fun s => ¬ biCount c s p ≠ 0)).card : ℚ)
      = (vsize c : ℚ) := by
    rw [← Nat.cast_add]
    exact_mod_cast Finset.filter_card_add_filter_neg_card_eq_card
      (fun s => biCount c s p ≠ 0)
  rw [div_add_div_same]
  congr 1
  linarith [hcards]

theorem addOne_normalization_witness :
    Sym.word "a" ∈ vocab [["a"]] ∧ Sym.word "a" ≠ Sym.stop ∧
      ∑ s ∈ vocab [["a"]], (addOneEntry [["a"]] s (Sym.word "a")).getD 0
        = ((uniCount [["a"]] (Sym.word "a") : ℚ) + (vsize [["a"]] : ℚ) - 1)
          / ((uniCount [["a"]] (Sym.word "a") : ℚ) + (vsize [["a"]] : ℚ)) :=
  ⟨by decide, by decide,
    addOne_normalization [["a"]] (Sym.word "a") (by decide) (by decide)⟩

/-- C5 (counterexample to the claim as stated): on the one-sentence
corpus `a`, the bigram `(start-marker, a)` was not observed; add-one-fast
returns `1/(UnigramCounts[a]+V) = 1/4`, but the eager add-one table has
no entry for it (the symbol position of an eagerly materialized entry is
never the start marker), so the eager query reads the absent
`(None, None)` entry and raises KeyError rather than returning `1/4`. -/
theorem addOne_eager_fast_counterexample :
    addOneEntry [["a"]] Sym.start (Sym.word "a") = none ∧
      addOneFastQuery [["a"]] Sym.start (Sym.word "a") = some (1 / 4) := by
  constructor
  · simp [addOneEntry,
      show biCount [["a"]] Sym.start (Sym.word "a") = 0 from by decide]
  · norm_num [addOneFastQuery,
      show biCount [["a"]] Sym.start (Sym.word "a") = 0 from by decide,
      show uniCount [["a"]] (Sym.word "a") = 1 from by decide,
      show vsize [["a"]] = 3 from by decide,
      show Sym.word "a" ∈ vocab [["a"]] from by decide]

/-- C5 (amended): restricted to pairs whose symbol is a vocabulary
symbol other than the start marker and whose predecessor is a
vocabulary symbol other than the end marker, the eager and lazy add-one
variants agree: `(count+1)/(UnigramCounts[p]+V)` on an observed pair
and `1/(UnigramCounts[p]+V)` on an unobserved one.  (Every observed
pair lies in this domain; outside it the eager table has no entry while
the lazy variant may still answer.) -/
theorem addOne_eager_fast_agree (c : List (List String)) (x p : Sym)
    (hx : x ∈ vocab c) (hxs : x ≠ Sym.start)
    (hp : p ∈ vocab c) (hps : p ≠ Sym.stop) :
    addOneEntry c x p = addOneFastQuery c x p ∧
      addOneFastQuery c x p
        = some (if biCount c x p ≠ 0
            then ((biCount c x p : ℚ) + 1) / ((uniCount c p : ℚ) + (vsize c : ℚ))
            else 1 / ((uniCount c p : ℚ) + (vsize c : ℚ))) := by
  by_cases hb : biCount c x p = 0 <;>
    simp [addOneEntry, addOneFastQuery, hb, hx, hxs, hp, hps]

theorem addOne_eager_fast_agree_witness :
    Sym.word "a" ∈ vocab [["a"]] ∧ Sym.word "a" ≠ Sym.start ∧
      Sym.start ∈ vocab [["a"]] ∧ Sym.start ≠ Sym.stop ∧
      (addOneEntry [["a"]] (Sym.word "a") Sym.start
          = addOneFastQuery [["a"]] (Sym.word "a") Sym.start ∧
        addOneFastQuery [["a"]] (Sym.word "a") Sym.start
          = some (if biCount [["a"]] (Sym.word "a") Sym.start ≠ 0
              then ((biCount [["a"]] (Sym.word "a") Sym.start : ℚ) + 1)
                / ((uniCount [["a"]] Sym.start : ℚ) + (vsize [["a"]] : ℚ))
              else 1 / ((uniCount [["a"]] Sym.start : ℚ) + (vsize [["a"]] : ℚ)))) :=
  ⟨by decide, by decide, by decide, by decide,
    addOne_eager_fast_agree [["a"]] (Sym.word "a") Sym.start
      (by decide) (by decide) (by decide) (by decide)⟩

/-- An observed count value is attained by at least one bigram type,
so its frequency-of-frequencies value is nonzero. -/
lemma NcF_pos (c : List (List String)) (x p : Sym) (h : biCount c x p ≠ 0) :
    NcF c (biCount c x p) ≠ 0 := by
  have hmem : (x, p) ∈ biSupport c := by
    rw [biSupport, List.mem_toFinset]
    exact biCount_ne_zero_mem c x p h
  have hmem2 : (x, p) ∈ (biSupport c).filter
      (fun q => biCount c q.1 q.2 = biCount c x p) :=
    Finset.mem_filter.2 ⟨hmem, rfl⟩
  exact Finset.card_ne_zero_of_mem hmem2

/-- C6: under Good-Turing smoothing, the stored probability of an
observed bigram of count `k` is `c*/N` with
`c* = (k+1)*Nc(k+1)/Nc(k)` when `Nc(k)` is nonzero and `c* = 0`
otherwise; moreover `Nc(k)` is in fact never zero for an observed
count (so no division by zero is ever performed, and the guard's zero
branch is never taken for a stored entry), `N` is nonzero, and the
designated unseen-pair entry is `Nc(1)/N`. -/
theorem goodTuring_prob (c : List (List String)) (x p : Sym) (k : ℕ)
    (hk : biCount c x p = k) (h0 : k ≠ 0) :
    goodTuringTable c x p
        = some ((if NcF c k = 0 then 0
            else ((k : ℚ) + 1) * (NcF c (k + 1) : ℚ) / (NcF c k : ℚ))
          / (gtN c : ℚ)) ∧
      NcF c k ≠ 0 ∧ gtN c ≠ 0 ∧
      gtUnseen c = (NcF c 1 : ℚ) / (gtN c : ℚ) := by
  subst hk
  refine ⟨by simp [goodTuringTable, cStar, h0], NcF_pos c x p h0, ?_, rfl⟩
  intro hN
  have hmem := biCount_ne_zero_mem c x p h0
  rw [gtN, List.length_eq_zero] at hN
  simp [hN] at hmem

theorem goodTuring_prob_witness :
    biCount [["a"]] (Sym.word "a") Sym.start = 1 ∧ (1 : ℕ) ≠ 0 ∧
      (goodTuringTable [["a"]] (Sym.word "a") Sym.start
          = some ((if NcF [["a"]] 1 = 0 then 0
              else ((1 : ℚ) + 1) * (NcF [["a"]] (1 + 1) : ℚ) / (NcF [["a"]] 1 : ℚ))
            / (gtN [["a"]] : ℚ)) ∧
        NcF [["a"]] 1 ≠ 0 ∧ gtN [["a"]] ≠ 0 ∧
        gtUnseen [["a"]] = (NcF [["a"]] 1 : ℚ) / (gtN [["a"]] : ℚ)) :=
  ⟨by decide, by decide,
    goodTuring_prob [["a"]] (Sym.word "a") Sym.start 1 (by decide) (by decide)⟩

lemma sentStream_congr (ts1 ts2 : List String)
    (h : ts1.map normTok = ts2.map normTok) : sentStream ts1 = sentStream ts2 := by
  have e1 : ts1.map (fun t => Sym.word (normTok t)) = (ts1.map normTok).map Sym.word := by
    rw [List.map_map]
    rfl
  have e2 : ts2.map (fun t => Sym.word (normTok t)) = (ts2.map normTok).map Sym.word := by
    rw [List.map_map]
    rfl
  simp only [sentStream, e1, e2, h]

lemma corpusStream_congr : ∀ (c1 c2 : List (List String)),
    c1.map (List.map normTok) = c2.map (List.map normTok) →
    c1.map sentStream = c2.map sentStream
  | [], [], _ => rfl
  | a :: c1, b :: c2, h => by
    simp only [List.map_cons, List.cons.injEq] at h ⊢
    exact ⟨sentStream_congr a b h.1, corpusStream_congr c1 c2 h.2⟩
  | [], _ :: _, h => by simp at h
  | _ :: _, [], h => by simp at h

/-- C10: both the model build and the sentence-probability query see
only the lowercased part of each token before its first underscore
(`t.split("_")[0]` after `sentence.lower()`), so corpora and test
sentences that agree after that truncation — e.g. `dog` versus
`dog_NOUN` — produce identical unigram counts, identical bigram
counts, and identical query results for every per-pair scoring
function.  The boundary markers are the separate `Sym.start`/`Sym.stop`
constructors added around the token stream; they are never passed
through the truncation. -/
theorem underscore_truncation (c1 c2 : List (List String))
    (ts1 ts2 : List String) (x y : Sym) (f : Sym → Sym → Option ℚ)
    (h1 : c1.map (List.map normTok) = c2.map (List.map normTok))
    (h2 : ts1.map normTok = ts2.map normTok) :
    uniCount c1 x = uniCount c2 x ∧ biCount c1 x y = biCount c2 x y ∧
      sentScore f ts1 = sentScore f ts2 := by
  have hc : c1.map sentStream = c2.map sentStream := corpusStream_congr c1 c2 h1
  have hpp : c1.map sentPairs = c2.map sentPairs := by
    have e1 : c1.map sentPairs = (c1.map sentStream).map (fun l => l.tail.zip l) := by
      rw [List.map_map]
      rfl
    have e2 : c2.map sentPairs = (c2.map sentStream).map (fun l => l.tail.zip l) := by
      rw [List.map_map]
      rfl
    rw [e1, e2, hc]
  refine ⟨?_, ?_, ?_⟩
  · simp only [uniCount, allSyms, hc]
  · simp only [biCount, allPairs, hpp]
  · simp only [sentScore, sentPairs, sentStream_congr ts1 ts2 h2]

theorem underscore_truncation_witness :
    [["dog"]].map (List.map normTok) = [["dog_NOUN"]].map (List.map normTok) ∧
      ["dog"].map normTok = ["dog_NOUN"].map normTok ∧
      (uniCount [["dog"]] (Sym.word "dog") = uniCount [["dog_NOUN"]] (Sym.word "dog") ∧
        biCount [["dog"]] (Sym.word "dog") Sym.start
            = biCount [["dog_NOUN"]] (Sym.word "dog") Sym.start ∧
        sentScore (fun _ _ => some 1) ["dog"]
            = sentScore (fun _ _ => some 1) ["dog_NOUN"]) :=
  ⟨by decide, by decide,
    underscore_truncation [["dog"]] [["dog_NOUN"]] ["dog"] ["dog_NOUN"]
      (Sym.word "dog") Sym.start (fun _ _ => some 1) (by decide) (by decide)⟩

end NgramModel

namespace PosTagging

/-!
Embedding of `tagging.py`.  Python dicts are modelled by
insertion-ordered association lists (a value update keeps the entry's
position, as in Python 3.7+), the training tokens are assumed
well-formed `word_TAG` pairs (a token without an underscore raises
IndexError in the source and occurs in no claim), and a raised
exception is modelled by `none`.
-/

/-- Marker distinguishing the two bigram key classes of the POS model:
the third component `'W'` (word given tag) or `'T'` (tag given
previous tag) of the dict keys. -/
inductive WT where
  | w : WT
  | t : WT
deriving DecidableEq, Repr

/-- Dict lookup (`d[k]` guarded by `k in d`). -/
def getA? {K A : Type} [DecidableEq K] : List (K × A) → K → Option A
  | [], _ => none
  | e :: r, k => if e.1 = k then some e.2 else getA? r k

/-- Dict counter increment: `d[k] += 1` if present, else `d[k] = 1`. -/
def bumpA {K : Type} [DecidableEq K] : List (K × ℕ) → K → List (K × ℕ)
  | [], k => [(k, 1)]
  | e :: r, k => if e.1 = k then (e.1, e.2 + 1) :: r else e :: bumpA r k

/-- Dict assignment `d.update({k: a})`: overwrite in place or append. -/
def setA {K A : Type} [DecidableEq K] : List (K × A) → K → A → List (K × A)
  | [], k, a => [(k, a)]
  | e :: r, k, a => if e.1 = k then (k, a) :: r else e :: setA r k a

/-- `max(d, key=d.get)` over natural-number values: the first entry of
maximal value in iteration order (`none` on an empty dict, where the
Python `max` raises ValueError). -/
def firstMaxN : List (String × ℕ) → Option (String × ℕ)
  | [] => none
  | e :: r => some (r.foldl (fun b x => if b.2 < x.2 then x else b) e)

/-- `max(d, key=d.get)` over rational values, first maximum. -/
def firstMaxQ {K : Type} : List (K × ℚ) → Option (K × ℚ)
  | [] => none
  | e :: r => some (r.foldl (fun b x => if b.2 < x.2 then x else b) e)

/-- `token.split("_")[0]` (no lowercasing in `tagging.py`). -/
def wordOf (tok : String) : String :=
  String.mk (NgramModel.splitUnder tok.toList).headI

/-- `token.split("_")[1]`: the part between the first and second
underscore. -/
def tagOf (tok : String) : String :=
  String.mk ((NgramModel.splitUnder tok.toList).drop 1).headI

/-- `set(tag)`: the set of the CHARACTERS of the tag string (the
source builds the initial tag set of a word from the characters of its
first tag, not from the tag itself).  The iteration order of a Python
set is unspecified; the claims settled below do not depend on it. -/
def charTags (tg : String) : List String :=
  (tg.toList.map (fun ch => ch.toString)).dedup

/-- The POS model state: `tags` (word to its registered tag set),
`unigramTagCount`, and the bigram count dict with its three-component
keys. -/
structure PosModel where
  tags : List (String × List String)
  uniTag : List (String × ℕ)
  bi : List ((String × String × WT) × ℕ)

/-- `tags[word].add(tag)` when the word is present, else
`tags.update({word: set(tag)})`. -/
def addTagFor (m : List (String × List String)) (word tag : String) :
    List (String × List String) :=
  match getA? m word with
  | some s => setA m word (if tag ∈ s then s else s ++ [tag])
  | none => m ++ [(word, charTags tag)]

/-- Process one training token given the previous tag; returns the new
state and the token's tag (the next previous tag). -/
def posAddTok (m : PosModel) (prevTag : String) (tok : String) :
    PosModel × String :=
  let word := wordOf tok
  let tag := tagOf tok
  ({ tags := addTagFor m.tags word tag,
     uniTag := bumpA m.uniTag tag,
     bi := bumpA (bumpA m.bi (word, tag, WT.w)) (tag, prevTag, WT.t) }, tag)

def posTokLoop : PosModel → String → List String → PosModel × String
  | m, prevTag, [] => (m, prevTag)
  | m, prevTag, tok :: rest =>
    let p := posAddTok m prevTag tok
    posTokLoop p.1 p.2 rest

/-- Process one sentence: previous tag starts at the start marker;
after the tokens, `unigramTagCount["<s>"] += 1` and
`bigramCount[("</s>", lastTag, 'T')] += 1`. -/
def posSent (m : PosModel) (toks : List String) : PosModel :=
  let p := posTokLoop m "<s>" toks
  { tags := p.1.tags,
    uniTag := bumpA p.1.uniTag "<s>",
    bi := bumpA p.1.bi ("</s>", p.2, WT.t) }

def posBuild (corpus : List (List String)) : PosModel :=
  corpus.foldl posSent ⟨[], [], []⟩

/-- The maximum-likelihood probability `bigramCount[k]/unigramTagCount[k[1]]`
of an observed key; `none` for an absent key (the decoder tests
membership before reading, so the absent case stands for the pruned
zero-probability branch).  The unigram lookup cannot fail on an
observed key. -/
def posProb (m : PosModel) (k : String × String × WT) : Option ℚ :=
  match getA? m.bi k with
  | some bc => some ((bc : ℚ) / (((getA? m.uniTag k.2.1).getD 0 : ℕ) : ℚ))
  | none => none

/-- One step table: keys `(tag, previousTag)`, values the best joint
probability; the second component is an `Option` because the initial
table's key is `("<s>", None)`. -/
abbrev Table : Type := List ((String × Option String) × ℚ)

/-- One word of the forward pass.  In-vocabulary word: for every entry
of the previous table and every candidate tag, multiply the previous
probability by the emission, transition and (on the last word) final
transition probabilities, skipping the candidate when any factor is
absent, and store under `(tag, prevTag)` (a later entry with the same
key overwrites).  Out-of-vocabulary word: the source evaluates
`prob[(prevTag, prevPrevTag)]`, indexing the LIST `prob` with a tuple,
which raises TypeError as soon as the previous table has an entry
(`none` here); with an empty previous table the loop body never runs
and an empty table is appended. -/
def stepWord (m : PosModel) (prev : Table) (word : String) (isLast : Bool) :
    Option Table :=
  match getA? m.tags word with
  | none => if List.isEmpty prev then some [] else none
  | some wordTags =>
    some (List.foldl (fun cur e =>
      wordTags.foldl (fun cur2 tag =>
        match posProb m (word, tag, WT.w) with
        | none => cur2
        | some pe =>
          match posProb m (tag, e.1.1, WT.t) with
          | none => cur2
          | some pt =>
            if isLast then
              match posProb m ("</s>", tag, WT.t) with
              | none => cur2
              | some pf => setA cur2 (tag, some e.1.1) (e.2 * pe * pt * pf)
            else
              setA cur2 (tag, some e.1.1) (e.2 * pe * pt)) cur) [] prev)

/-- The forward pass over the words; tables are accumulated newest
first (`tabs.headI` is `prob[-1]`). -/
def decodeSteps (m : PosModel) : List Table → List String → Option (List Table)
  | tabs, [] => some tabs
  | tabs, w :: rest =>
    match stepWord m (List.headI tabs) w rest.isEmpty with
    | none => none
    | some t => decodeSteps m (t :: tabs) rest

/-- The backtrace loop over `i = len(words)-2 .. 0`: filter the table
of word `i` (`prob[i+1]`) to the keys whose tag equals the resolved
previous tag, take the first maximum, and prepend `word_tag` to the
output; on an empty filter fall back to the old previous tag as the
emitted tag (TypeError, `none`, if that is `None`) with the most
common tag as the new previous tag.  The tables arrive newest first
and the words last-but-one first; the initial table is never reached. -/
def backSteps (mct : String) :
    List Table → List String → Option String → String → Option String
  | _, [], _, acc => some acc
  | [], _ :: _, _, _ => none
  | tb :: tabs, w :: ws, prevTag, acc =>
    match firstMaxQ (List.filter (fun e => some e.1.1 == prevTag) tb) with
    | some e => backSteps mct tabs ws e.1.2 (w ++ "_" ++ e.1.1 ++ " " ++ acc)
    | none =>
      match prevTag with
      | none => none
      | some s => backSteps mct tabs ws (some mct) (w ++ "_" ++ s ++ " " ++ acc)

/-- The full decoder of `tagging.py`: build the model, run the forward
pass from the initial table `{("<s>", None): 1}`, pick the maximal
entry of the last table (`ValueError`, hence `none`, when it is
empty), and backtrace.  `none` for the empty-dict `ValueError` of
`most_common_tag`, for an empty word list (the loop variable `word`
is then unbound at output time), and for every other modelled raise. -/
def posDecode (corpus : List (List String)) (words : List String) :
    Option String :=
  let m := posBuild corpus
  match firstMaxN m.uniTag, words.getLast? with
  | some mctE, some lastWord =>
    match decodeSteps m [[(("<s>", none), 1)]] words with
    | none => none
    | some allT =>
      match firstMaxQ (List.headI allT) with
      | none => none
      | some e =>
        backSteps mctE.1 (List.tail allT) (words.dropLast.reverse) e.1.2
          (lastWord ++ "_" ++ e.1.1)
  | _, _ => none

/-- C1: on the one-sentence corpus `The_DET dog_NOUN runs_VERB` and
the test sentence `The dog runs`, the decoder does NOT terminate
normally with `The_DET dog_NOUN runs_VERB`: the tag set registered for
each word holds the characters of its tag (`set(tag)`), no
single-character tag has an emission entry, every step table stays
empty, and the final `max` over the empty table raises ValueError
(modelled `none`). -/
theorem pos_decode_minimal_corpus :
    posDecode [["The_DET", "dog_NOUN", "runs_VERB"]] ["The", "dog", "runs"] = none ∧
      posDecode [["The_DET", "dog_NOUN", "runs_VERB"]] ["The", "dog", "runs"]
        ≠ some "The_DET dog_NOUN runs_VERB" := by
  constructor
  · decide
  · decide

/-- C2: after the build over the corpus `The_DET`, the tag set
registered for `The` is `{"D", "E", "T"}` — the characters of the tag
`DET` — and not the observed tag set `{"DET"}`: `set(tag)` iterates
the tag string. -/
theorem pos_tag_vocabulary_chars :
    (getA? (posBuild [["The_DET"]]).tags "The").map List.toFinset
        = some ({"D", "E", "T"} : Finset String) ∧
      (getA? (posBuild [["The_DET"]]).tags "The").map List.toFinset
        ≠ some ({"DET"} : Finset String) := by
  constructor
  · decide
  · decide

/-- C3: on the corpus `a_D` and the test sentence `b`, the word `b`
has no registered tag set; the previous table `{("<s>", None): 1}` is
nonempty, so the out-of-vocabulary branch evaluates
`prob[(prevTag, prevPrevTag)]`, indexing the list of tables with a
tuple, and raises TypeError (modelled `none`) instead of propagating
the previous probabilities under the most frequent tag. -/
theorem pos_decode_oov_crash :
    stepWord (posBuild [["a_D"]]) [(("<s>", none), 1)] "b" true = none ∧
      posDecode [["a_D"]] ["b"] = none := by
  constructor
  · decide
  · decide

end PosTagging

namespace Viterbi

/-!
Embedding of `viterbi.py`.  The matrices `A` (shape `(N+1) x N`) and
`B` (shape `N x M`) are total functions on indices; the observation
sequence is the index function `o`.  `np.max` and `np.argmax` over a
row are modelled on the row's value list; `np.argmax` returns the
first index attaining the maximum.
-/

/-- `np.max` of a row (the empty case, on which numpy raises, is given
the junk value `0`; every use below is guarded by `0 < N`). -/
def npMax : List ℚ → ℚ
  | [] => 0
  | x :: xs => xs.foldl max x

/-- Fold tracking the running maximum and the first index attaining
it: a later element replaces the current best only when strictly
greater. -/
def bestAux : List ℚ → ℚ × ℕ → ℕ → ℚ × ℕ
  | [], b, _ => b
  | x :: xs, b, i => bestAux xs (if b.1 < x then (x, i) else b) (i + 1)

/-- `np.argmax`: the first index of the maximum. -/
def npArgmax : List ℚ → ℕ
  | [] => 0
  | x :: xs => (bestAux xs (x, 0) 1).2

lemma foldl_max_init_le (xs : List ℚ) : ∀ b : ℚ, b ≤ xs.foldl max b := by
  induction xs with
  | nil => intro b; simp
  | cons x xs ih =>
    intro b
    exact le_trans (le_max_left b x) (by simpa using ih (max b x))

lemma le_foldl_max (xs : List ℚ) : ∀ (b x : ℚ), x ∈ xs → x ≤ xs.foldl max b := by
  induction xs with
  | nil => intro b x hx; simp at hx
  | cons y xs ih =>
    intro b x hx
    rcases List.mem_cons.1 hx with rfl | hx
    · exact le_trans (le_max_right b x) (by simpa using foldl_max_init_le xs (max b x))
    · simpa using ih (max b y) x hx

/-- Every element of a nonempty list is at most its `np.max`. -/
lemma le_npMax (l : List ℚ) (x : ℚ) (hx : x ∈ l) : x ≤ npMax l := by
  cases l with
  | nil => simp at hx
  | cons y ys =>
    rcases List.mem_cons.1 hx with rfl | hx
    · exact foldl_max_init_le ys x
    · exact le_foldl_max ys y x hx

lemma bestAux_fst (xs : List ℚ) : ∀ (b : ℚ × ℕ) (i : ℕ),
    (bestAux xs b i).1 = xs.foldl max b.1 := by
  induction xs with
  | nil => intro b i; rfl
  | cons x xs ih =>
    intro b i
    rw [bestAux, ih, List.foldl_cons]
    have hinit : (if b.1 < x then (x, i) else b).1 = max b.1 x := by
      rcases lt_trichotomy b.1 x with h | h | h
      · rw [if_pos h, max_eq_right (le_of_lt h)]
      · rw [if_neg (by rw [h]; exact lt_irrefl x), h, max_self]
      · rw [if_neg (not_lt.2 (le_of_lt h)), max_eq_left (le_of_lt h)]
    rw [hinit]

lemma bestAux_attain (xs : List ℚ) : ∀ (b : ℚ × ℕ) (i : ℕ),
    bestAux xs b i = b ∨
      ∃ j, j < xs.length ∧ (bestAux xs b i).1 = xs.getD j 0 ∧
        (bestAux xs b i).2 = i + j := by
  induction xs with
  | nil => intro b i; exact Or.inl rfl
  | cons x xs ih =>
    intro b i
    rw [bestAux]
    by_cases hbx : b.1 < x
    · rw [if_pos hbx]
      rcases ih (x, i) (i + 1) with h | ⟨j, hj, h1, h2⟩
      · refine Or.inr ⟨0, by simp, ?_, ?_⟩
        · rw [h, List.getD_cons_zero]
        · rw [h]
          simp
      · refine Or.inr ⟨j + 1, by simp only [List.length_cons]; omega, ?_, ?_⟩
        · rw [List.getD_cons_succ]
          exact h1
        · rw [h2]; omega
    · rw [if_neg hbx]
      rcases ih b (i + 1) with h | ⟨j, hj, h1, h2⟩
      · exact Or.inl h
      · refine Or.inr ⟨j + 1, by simp only [List.length_cons]; omega, ?_, ?_⟩
        · rw [List.getD_cons_succ]
          exact h1
        · rw [h2]; omega

/-- `np.argmax` of a nonempty list is a valid index and the list
attains its `np.max` there. -/
lemma npArgmax_spec (l : List ℚ) (h : l ≠ []) :
    npArgmax l < l.length ∧ l.getD (npArgmax l) 0 = npMax l := by
  cases l with
  | nil => exact absurd rfl h
  | cons x xs =>
    have hfst : (bestAux xs (x, 0) 1).1 = npMax (x :: xs) := bestAux_fst xs (x, 0) 1
    have harg : npArgmax (x :: xs) = (bestAux xs (x, 0) 1).2 := rfl
    rcases bestAux_attain xs (x, 0) 1 with h2 | ⟨j, hj, h1, h2⟩
    · have hv : (bestAux xs (x, 0) 1).1 = x := by rw [h2]
      have hi : (bestAux xs (x, 0) 1).2 = 0 := by rw [h2]
      constructor
      · rw [harg, hi]
        simp
      · rw [harg, hi, List.getD_cons_zero, ← hfst, hv]
    · constructor
      · rw [harg, h2]
        simp only [List.length_cons]
        omega
      · rw [harg, h2, show 1 + j = j + 1 from by omega, List.getD_cons_succ,
          ← hfst, h1]

/-- The Viterbi lattice `v` of `viterbi.py`:
`v[:, 0] = A[0] * B[:, o[0]]` and
`v[s, t] = max over s2 of v[s2, t-1] * A[s2+1, s] * B[s, o[t]]`
(the row `vAB[s]` is evaluated over the `N` states and reduced by
`np.max`). -/
def vitV (A B : ℕ → ℕ → ℚ) (o : ℕ → ℕ) (N : ℕ) : ℕ → ℕ → ℚ
  | 0, s => A 0 s * B s (o 0)
  | t + 1, s =>
    npMax ((List.range N).map
      (fun s2 => vitV A B o N t s2 * A (s2 + 1) s * B s (o (t + 1))))

/-- The backpointer lattice `bt` (`np.argmax` of the same rows;
column `0` is the `np.zeros` initialization). -/
def vitBT (A B : ℕ → ℕ → ℚ) (o : ℕ → ℕ) (N : ℕ) : ℕ → ℕ → ℕ
  | 0, _ => 0
  | t + 1, s =>
    npArgmax ((List.range N).map
      (fun s2 => vitV A B o N t s2 * A (s2 + 1) s * B s (o (t + 1))))

/-- `best_score = np.max(v[:, T-1])`. -/
def vitBest (A B : ℕ → ℕ → ℚ) (o : ℕ → ℕ) (N T : ℕ) : ℚ :=
  npMax ((List.range N).map (fun s => vitV A B o N (T - 1) s))

/-- The final state `np.argmax(v[:, T-1])`. -/
def vitLast (A B : ℕ → ℕ → ℚ) (o : ℕ → ℕ) (N T : ℕ) : ℕ :=
  npArgmax ((List.range N).map (fun s => vitV A B o N (T - 1) s))

/-- The backtraced state indices for times `0..t`, ending at `tag`:
the loop `tag = bt[tag, t]` prepending one state per step. -/
def vitPathAux (A B : ℕ → ℕ → ℚ) (o : ℕ → ℕ) (N : ℕ) : ℕ → ℕ → List ℕ
  | 0, tag => [tag]
  | t + 1, tag => vitPathAux A B o N t (vitBT A B o N (t + 1) tag) ++ [tag]

/-- The decoded state sequence of length `T`. -/
def vitSeq (A B : ℕ → ℕ → ℚ) (o : ℕ → ℕ) (N T : ℕ) : List ℕ :=
  vitPathAux A B o N (T - 1) (vitLast A B o N T)

/-- The emitted output: each observation word paired with the tag name
of its decoded state (`words[t] + "_" + tags[tag]`). -/
def vitOut (A B : ℕ → ℕ → ℚ) (o : ℕ → ℕ) (N T : ℕ)
    (tagsL words : List String) : List (String × String) :=
  words.zip ((vitSeq A B o N T).map (fun i => tagsL.getD i ""))

lemma getD_range_map (f : ℕ → ℚ) (N s : ℕ) (h : s < N) :
    ((List.range N).map f).getD s 0 = f s := by
  rw [List.getD_eq_getElem _ _ (by simpa using h)]
  simp

lemma range_map_ne_nil (f : ℕ → ℚ) (N : ℕ) (h : 0 < N) :
    (List.range N).map f ≠ [] := by
  intro hc
  have h0 : ((List.range N).map f).length = 0 := by rw [hc]; rfl
  rw [List.length_map, List.length_range] at h0
  omega

lemma vitPathAux_length (A B : ℕ → ℕ → ℚ) (o : ℕ → ℕ) (N : ℕ) :
    ∀ (t tag : ℕ), (vitPathAux A B o N t tag).length = t + 1 := by
  intro t
  induction t with
  | zero => intro tag; rfl
  | succ t ih => intro tag; simp [vitPathAux, ih]

lemma vitPathAux_getD_last (A B : ℕ → ℕ → ℚ) (o : ℕ → ℕ) (N : ℕ) :
    ∀ (t tag : ℕ), (vitPathAux A B o N t tag).getD t 0 = tag := by
  intro t
  induction t with
  | zero => intro tag; rfl
  | succ t ih =>
    intro tag
    rw [vitPathAux,
      List.getD_append_right (vitPathAux A B o N t (vitBT A B o N (t + 1) tag))
        [tag] 0 (t + 1) (by rw [vitPathAux_length]),
      vitPathAux_length]
    simp

lemma vitPathAux_getD_step (A B : ℕ → ℕ → ℚ) (o : ℕ → ℕ) (N : ℕ) :
    ∀ (t tag j : ℕ), j < t →
      (vitPathAux A B o N t tag).getD j 0
        = vitBT A B o N (j + 1) ((vitPathAux A B o N t tag).getD (j + 1) 0) := by
  intro t
  induction t with
  | zero => intro tag j hj; omega
  | succ t ih =>
    intro tag j hj
    rw [vitPathAux]
    by_cases hjt : j < t
    · rw [List.getD_append (vitPathAux A B o N t (vitBT A B o N (t + 1) tag))
          [tag] 0 j (by rw [vitPathAux_length]; omega),
        List.getD_append (vitPathAux A B o N t (vitBT A B o N (t + 1) tag))
          [tag] 0 (j + 1) (by rw [vitPathAux_length]; omega)]
      exact ih _ j hjt
    · have hj2 : j = t := by omega
      subst hj2
      rw [List.getD_append (vitPathAux A B o N j (vitBT A B o N (j + 1) tag))
          [tag] 0 j (by rw [vitPathAux_length]; omega),
        vitPathAux_getD_last,
        List.getD_append_right (vitPathAux A B o N j (vitBT A B o N (j + 1) tag))
          [tag] 0 (j + 1) (by rw [vitPathAux_length]),
        vitPathAux_length]
      simp

/-- C9: the matrix Viterbi decoder computes the initialization
`v[s, 0] = A[0, s] * B[s, o[0]]`; at each later time the lattice value
is the maximum over predecessors of
`v[s2, t-1] * A[s2+1, s] * B[s, o[t]]`, attained at the backpointer
state; the reported score is the maximum final lattice value, attained
at the final state; and the emitted sequence has length `T`, ends at
the final state, follows the backpointers, and pairs each observation
word with its decoded tag. -/
theorem viterbi_correct (A B : ℕ → ℕ → ℚ) (o : ℕ → ℕ)
    (tagsL words : List String) (N T t s s2 : ℕ)
    (hN : 0 < N) (hT : 0 < T) (hs : s < N) (hs2 : s2 < N)
    (ht : t + 1 < T) (hw : words.length = T) :
    vitV A B o N 0 s = A 0 s * B s (o 0) ∧
      vitV A B o N t s2 * A (s2 + 1) s * B s (o (t + 1))
        ≤ vitV A B o N (t + 1) s ∧
      vitBT A B o N (t + 1) s < N ∧
      vitV A B o N (t + 1) s
        = vitV A B o N t (vitBT A B o N (t + 1) s)
            * A (vitBT A B o N (t + 1) s + 1) s * B s (o (t + 1)) ∧
      vitV A B o N (T - 1) s ≤ vitBest A B o N T ∧
      vitLast A B o N T < N ∧
      vitBest A B o N T = vitV A B o N (T - 1) (vitLast A B o N T) ∧
      (vitSeq A B o N T).length = T ∧
      (vitSeq A B o N T).getD (T - 1) 0 = vitLast A B o N T ∧
      (vitSeq A B o N T).getD t 0
        = vitBT A B o N (t + 1) ((vitSeq A B o N T).getD (t + 1) 0) ∧
      (vitOut A B o N T tagsL words).length = T ∧
      (vitOut A B o N T tagsL words).getD t ("", "")
        = (words.getD t "",
            tagsL.getD ((vitSeq A B o N T).getD t 0) "") := by
  have hrow : ∀ (t2 s3 : ℕ), s3 < N →
      ((List.range N).map
          (fun s2 => vitV A B o N t2 s2 * A (s2 + 1) s3 * B s3 (o (t2 + 1)))) ≠ [] :=
    fun t2 s3 _ => range_map_ne_nil _ N hN
  have hmem : vitV A B o N t s2 * A (s2 + 1) s * B s (o (t + 1))
      ∈ (List.range N).map
          (fun s2 => vitV A B o N t s2 * A (s2 + 1) s * B s (o (t + 1))) :=
    List.mem_map.2 ⟨s2, List.mem_range.2 hs2, rfl⟩
  have hargm := npArgmax_spec
    ((List.range N).map
      (fun s2 => vitV A B o N t s2 * A (s2 + 1) s * B s (o (t + 1))))
    (hrow t s hs)
  have hbtlt : vitBT A B o N (t + 1) s < N := by
    have h1 := hargm.1
    rwa [List.length_map, List.length_range] at h1
  have hlastrow := npArgmax_spec
    ((List.range N).map (fun s => vitV A B o N (T - 1) s))
    (range_map_ne_nil _ N hN)
  have hlastlt : vitLast A B o N T < N := by
    have h1 := hlastrow.1
    rwa [List.length_map, List.length_range] at h1
  have hfinmem : vitV A B o N (T - 1) s
      ∈ (List.range N).map (fun s => vitV A B o N (T - 1) s) :=
    List.mem_map.2 ⟨s, List.mem_range.2 hs, rfl⟩
  have hseqlen : (vitSeq A B o N T).length = T := by
    rw [vitSeq, vitPathAux_length]
    omega
  have hmaplen : ((vitSeq A B o N T).map
      (fun i => tagsL.getD i "")).length = T := by
    rw [List.length_map, hseqlen]
  refine ⟨rfl, ?_, hbtlt, ?_, ?_, hlastlt, ?_, hseqlen, ?_, ?_, ?_, ?_⟩
  · exact le_npMax _ _ hmem
  · show npMax _ = _
    rw [← getD_range_map
      (fun s2 => vitV A B o N t s2 * A (s2 + 1) s * B s (o (t + 1))) N
      (vitBT A B o N (t + 1) s) hbtlt]
    exact hargm.2.symm
  · exact le_npMax _ _ hfinmem
  · show npMax _ = _
    rw [← getD_range_map (fun s => vitV A B o N (T - 1) s) N
      (vitLast A B o N T) hlastlt]
    exact hlastrow.2.symm
  · rw [vitSeq]
    exact vitPathAux_getD_last A B o N (T - 1) (vitLast A B o N T)
  · rw [vitSeq]
    exact vitPathAux_getD_step A B o N (T - 1) (vitLast A B o N T) t (by omega)
  · rw [vitOut, List.length_zip, hmaplen, hw]
    simp
  · have htT : t < T := by omega
    have h1 : t < words.length := by omega
    have h2 : t < ((vitSeq A B o N T).map (fun i => tagsL.getD i "")).length := by
      rw [hmaplen]; omega
    have h3 : t < (vitSeq A B o N T).length := by rw [hseqlen]; omega
    rw [vitOut, List.getD_eq_getElem _ _
      (by rw [List.length_zip, hw, hmaplen]; simp only [min_self]; omega)]
    rw [List.getElem_zip, List.getElem_map]
    rw [List.getD_eq_getElem _ _ h1, List.getD_eq_getElem _ _ h3]

/-- The toy transition matrix of shape `(N+1) x N` with `N = 2`:
row `0` the initial distribution. -/
def toyA : ℕ → ℕ → ℚ := fun i j =>
  ((([[6/10, 4/10], [7/10, 3/10], [4/10, 6/10]] : List (List ℚ)).getD i []).getD j 0)

/-- The toy emission matrix of shape `N x M` with `N = M = 2`. -/
def toyB : ℕ → ℕ → ℚ := fun i j =>
  ((([[9/10, 1/10], [2/10, 8/10]] : List (List ℚ)).getD i []).getD j 0)

/-- The toy observation index sequence `[x, y]`. -/
def toyO : ℕ → ℕ := fun t => ([0, 1].getD t 0)

theorem viterbi_correct_witness :
    (0 : ℕ) < 2 ∧ (["x", "y"] : List String).length = 2 ∧
      (vitV toyA toyB toyO 2 0 0 = toyA 0 0 * toyB 0 (toyO 0) ∧
        vitV toyA toyB toyO 2 0 0 * toyA (0 + 1) 0 * toyB 0 (toyO (0 + 1))
          ≤ vitV toyA toyB toyO 2 (0 + 1) 0 ∧
        vitBT toyA toyB toyO 2 (0 + 1) 0 < 2 ∧
        vitV toyA toyB toyO 2 (0 + 1) 0
          = vitV toyA toyB toyO 2 0 (vitBT toyA toyB toyO 2 (0 + 1) 0)
              * toyA (vitBT toyA toyB toyO 2 (0 + 1) 0 + 1) 0
              * toyB 0 (toyO (0 + 1)) ∧
        vitV toyA toyB toyO 2 (2 - 1) 0 ≤ vitBest toyA toyB toyO 2 2 ∧
        vitLast toyA toyB toyO 2 2 < 2 ∧
        vitBest toyA toyB toyO 2 2
          = vitV toyA toyB toyO 2 (2 - 1) (vitLast toyA toyB toyO 2 2) ∧
        (vitSeq toyA toyB toyO 2 2).length = 2 ∧
        (vitSeq toyA toyB toyO 2 2).getD (2 - 1) 0 = vitLast toyA toyB toyO 2 2 ∧
        (vitSeq toyA toyB toyO 2 2).getD 0 0
          = vitBT toyA toyB toyO 2 (0 + 1)
              ((vitSeq toyA toyB toyO 2 2).getD (0 + 1) 0) ∧
        (vitOut toyA toyB toyO 2 2 ["A", "B"] ["x", "y"]).length = 2 ∧
        (vitOut toyA toyB toyO 2 2 ["A", "B"] ["x", "y"]).getD 0 ("", "")
          = ((["x", "y"] : List String).getD 0 "",
              (["A", "B"] : List String).getD
                ((vitSeq toyA toyB toyO 2 2).getD 0 0) "")) :=
  ⟨by decide, by decide,
    viterbi_correct toyA toyB toyO ["A", "B"] ["x", "y"] 2 2 0 0 0
      (by decide) (by decide) (by decide) (by decide) (by decide) (by decide)⟩

end Viterbi
